import Mathlib

/-!
# Verification of the starcoin sharded in-memory cache (`storage/src/cache_storage/mod.rs`)

A shallow embedding of the cache core: the per-shard LRU container, the
shard router, the partitioned `ShardLruCache`, and the namespaced
`CacheStorage` facade, together with theorems settling the specification
claims about them.

Byte sequences (`Vec<u8>` in the source) are modelled as `List Nat`;
machine integers are `Nat` with explicit `% 2 ^ w` truncation where the
source truncates.  Fallible operations (`anyhow::Result`) are modelled
with `Except String`.
-/

/-- Byte sequences (`Vec<u8>` / `&[u8]` in the source). -/
abbrev Bytes : Type := List Nat

/-- Source: `static NUM_SHARD_BITS: usize = 4;` -/
def NUM_SHARD_BITS : Nat := 4

/-- Source: `static NUM_SHARDS: usize = 1 << NUM_SHARD_BITS;` -/
def NUM_SHARDS : Nat := 1 <<< NUM_SHARD_BITS

/-- Modelled from the spec: one shard is an `lru::LruCache<Vec<u8>, Vec<u8>>`
(an external crate, not part of this repository's sources).  The spec's shard
contract (§4.2): a bounded associative container with capacity fixed at
construction; `get`/`put` mark the touched entry most-recently-used; a `put`
of a new key into a full shard first evicts the least-recently-used entry.

The entries are kept most-recently-used first.  Each entry additionally
carries the logical time (a per-shard operation counter) of its last access,
so that "least-recently-accessed" can be stated and proved rather than read
off the list order by fiat; `clock` is the next access time. -/
structure Shard where
  cap : Nat
  clock : Nat
  entries : List (Bytes × Bytes × Nat)
  deriving Repr, DecidableEq

/-- A fresh, empty shard of capacity `cap` (`LruCache::new(per_shard_cap)`). -/
def Shard.empty (cap : Nat) : Shard :=
  { cap := cap, clock := 0, entries := [] }

/-- The keys currently stored in a shard. -/
def Shard.keyList (s : Shard) : List Bytes :=
  s.entries.map (fun e => e.1)

/-- Look up the entry for key `k`, if present. -/
def Shard.findEntry (s : Shard) (k : Bytes) : Option (Bytes × Bytes × Nat) :=
  s.entries.find? (fun e => e.1 == k)

/-- Source: `LruCache::len`. -/
def Shard.len (s : Shard) : Nat :=
  s.entries.length

/-- Source: `LruCache::contains`: membership test, not affecting recency order. -/
def Shard.contains (s : Shard) (k : Bytes) : Bool :=
  (s.findEntry k).isSome

/-- Record an access to key `k` with value `v`: the entry moves to the front
(most-recently-used) with the current clock as its last-access time, and any
previous entry for `k` is dropped. -/
def Shard.touch (s : Shard) (k v : Bytes) : Shard :=
  { cap := s.cap
    clock := s.clock + 1
    entries := (k, v, s.clock) :: s.entries.filter (fun e => !(e.1 == k)) }

/-- Modelled from the spec: `LruCache::get` — returns the cached value if
present and promotes the entry to most-recently-used; absent keys leave the
shard unchanged. -/
def Shard.get (s : Shard) (k : Bytes) : Option Bytes × Shard :=
  match s.findEntry k with
  | none => (none, s)
  | some e => (some e.2.1, s.touch k e.2.1)

/-- Modelled from the spec: `LruCache::put` — inserts or overwrites, returning
the value previously associated with the key, if any; if the shard is at
capacity and the key is new, the least-recently-used (last) entry is evicted
before inserting. -/
def Shard.put (s : Shard) (k v : Bytes) : Option Bytes × Shard :=
  match s.findEntry k with
  | some e => (some e.2.1, s.touch k v)
  | none =>
    if s.entries.length = s.cap then
      (none,
        { cap := s.cap
          clock := s.clock + 1
          entries := (k, v, s.clock) :: s.entries.dropLast })
    else
      (none, s.touch k v)

/-- Modelled from the spec: `LruCache::pop` — removes and returns the entry if
present; a no-op otherwise. -/
def Shard.pop (s : Shard) (k : Bytes) : Option Bytes × Shard :=
  match s.findEntry k with
  | none => (none, s)
  | some e =>
    (some e.2.1,
      { cap := s.cap
        clock := s.clock
        entries := s.entries.filter (fun e => !(e.1 == k)) })

/-- Modelled from the spec: the router's "well-distributed hash" of the key's
bytes.  The source uses `std::collections::hash_map::DefaultHasher`
(SipHash-1-3, external to this repository); the model is a concrete
deterministic 64-bit FNV-1a-style hash — a pure function of the key bytes,
which is all the spec requires of it. -/
def defaultHasher (key : Bytes) : Nat :=
  key.foldl (fun h b => ((h ^^^ b % 256) * 1099511628211) % 2 ^ 64)
    14695981039346656037

/-- Source: `fn shard(hash: u32) -> u32 { hash >> (32 - NUM_SHARD_BITS) }` -/
def ShardLruCache.shard (hash : Nat) : Nat :=
  hash >>> (32 - NUM_SHARD_BITS)

/-- Source: `fn get_idx(key: &Vec<u8>) -> usize`: hash the key, truncate the 64-bit
digest to 32 bits (`hasher.finish() as u32`), and take the top
`NUM_SHARD_BITS` bits. -/
def ShardLruCache.get_idx (key : Bytes) : Nat :=
  ShardLruCache.shard (defaultHasher key % 2 ^ 32)

/-- Source: `pub struct ShardLruCache { caches: Vec<Mutex<LruCache<..>>> }`.  Locks
guard interior mutability and have no sequential content; the state is the
vector of shards. -/
structure ShardLruCache where
  caches : List Shard
  deriving Repr, DecidableEq

/-- Source: `ShardLruCache::new(cap)`: `NUM_SHARDS` fresh shards, each of capacity
`(cap + NUM_SHARDS - 1) / NUM_SHARDS`. -/
def ShardLruCache.new (cap : Nat) : ShardLruCache :=
  { caches := List.replicate NUM_SHARDS (Shard.empty ((cap + NUM_SHARDS - 1) / NUM_SHARDS)) }

/-- The shard a key is routed to (`self.caches[idx]`); out-of-range indexing
(impossible for a constructed cache, see the in-bounds theorem) degenerates to
an empty shard rather than a panic. -/
def ShardLruCache.shardAt (c : ShardLruCache) (idx : Nat) : Shard :=
  c.caches.getD idx (Shard.empty 0)

/-- Source: `ShardLruCache::put`. -/
def ShardLruCache.put (c : ShardLruCache) (key value : Bytes) :
    Option Bytes × ShardLruCache :=
  let idx := ShardLruCache.get_idx key
  (((c.shardAt idx).put key value).1,
    { caches := c.caches.set idx ((c.shardAt idx).put key value).2 })

/-- Source: `ShardLruCache::get`. -/
def ShardLruCache.get (c : ShardLruCache) (key : Bytes) :
    Option Bytes × ShardLruCache :=
  let idx := ShardLruCache.get_idx key
  (((c.shardAt idx).get key).1,
    { caches := c.caches.set idx ((c.shardAt idx).get key).2 })

/-- Source: `ShardLruCache::pop`. -/
def ShardLruCache.pop (c : ShardLruCache) (key : Bytes) :
    Option Bytes × ShardLruCache :=
  let idx := ShardLruCache.get_idx key
  (((c.shardAt idx).pop key).1,
    { caches := c.caches.set idx ((c.shardAt idx).pop key).2 })

/-- Source: `ShardLruCache::len`: `self.caches.iter().fold(0, |x, obj| obj.lock().len() + x)`. -/
def ShardLruCache.len (c : ShardLruCache) : Nat :=
  c.caches.foldl (fun x obj => obj.len + x) 0

/-- Source: `ShardLruCache::contains`. -/
def ShardLruCache.contains (c : ShardLruCache) (key : Bytes) : Bool :=
  (c.shardAt (ShardLruCache.get_idx key)).contains key

/-- Source: `ShardLruCache::keys`: all keys, shard by shard in shard order. -/
def ShardLruCache.keys (c : ShardLruCache) : List Bytes :=
  c.caches.foldl (fun all_keys cache => all_keys ++ cache.keyList) []

/-- Source: `fn compose_key(prefix_name: String, source_key: Vec<u8>) -> Vec<u8>`:
the namespace's bytes followed by the raw key's bytes, with no separator.
The `String` namespace is modelled by its byte sequence
(`prefix_name.as_bytes().to_vec()`). -/
def compose_key (prefix_name : Bytes) (source_key : Bytes) : Bytes :=
  prefix_name ++ source_key

/-- Source: `WriteOp` from `storage/src/storage.rs` (only its shape is needed here):
either set a value or delete the key. -/
inductive WriteOp where
  | Value (v : Bytes)
  | Deletion
  deriving Repr, DecidableEq

/-- Source: `WriteBatch { rows: Vec<(Vec<u8>, WriteOp)> }`: an ordered sequence of
keyed operations. -/
structure WriteBatch where
  rows : List (Bytes × WriteOp)
  deriving Repr, DecidableEq

/-- Source: `record_metrics(...).call(f)`: the metrics recorder wraps a unit of work,
records its duration as a side effect, and returns the closure's result
unchanged; it never alters the result, so sequentially it is the identity. -/
def record_metrics_call {α : Type} (f : Unit → α) : α :=
  f ()

/-- Source: `pub struct CacheStorage { cache: ShardLruCache, metrics: Option<StorageMetrics> }`.
The metrics handle only drives gauge/timer side effects, never results;
it is carried as an opaque optional token. -/
structure CacheStorage where
  cache : ShardLruCache
  metrics : Option Unit
  deriving Repr, DecidableEq

/-- Source: `CacheStorage::new_with_capacity(size, metrics)`. -/
def CacheStorage.new_with_capacity (size : Nat) (metrics : Option Unit) : CacheStorage :=
  { cache := ShardLruCache.new size, metrics := metrics }

/-- Source: `InnerStore::get for CacheStorage`: compose the key, delegate to the
cache, wrap in the metrics recorder. -/
def CacheStorage.get (st : CacheStorage) (prefix_name : Bytes) (key : Bytes) :
    Except String (Option Bytes) × CacheStorage :=
  record_metrics_call (fun _ =>
    (Except.ok (st.cache.get (compose_key prefix_name key)).1,
      { st with cache := (st.cache.get (compose_key prefix_name key)).2 }))

/-- Source: `InnerStore::put for CacheStorage`: compose the key, delegate to the
cache (not individually instrumented), return `Ok(())`. -/
def CacheStorage.put (st : CacheStorage) (prefix_name : Bytes) (key value : Bytes) :
    Except String Unit × CacheStorage :=
  (Except.ok (),
    { st with cache := (st.cache.put (compose_key prefix_name key) value).2 })

/-- Source: `InnerStore::contains_key for CacheStorage`. -/
def CacheStorage.contains_key (st : CacheStorage) (prefix_name : Bytes) (key : Bytes) :
    Except String Bool × CacheStorage :=
  record_metrics_call (fun _ =>
    (Except.ok (st.cache.contains (compose_key prefix_name key)), st))

/-- Source: `InnerStore::remove for CacheStorage`: pop the composed key, return `Ok(())`. -/
def CacheStorage.remove (st : CacheStorage) (prefix_name : Bytes) (key : Bytes) :
    Except String Unit × CacheStorage :=
  (Except.ok (),
    { st with cache := (st.cache.pop (compose_key prefix_name key)).2 })

/-- The `for (key, write_op) in &batch.rows` loop of `write_batch`: each row
is replayed against `put`/`remove` in order, stopping at the first error
(the `?` operator). -/
def CacheStorage.writeRows (st : CacheStorage) (prefix_name : Bytes) :
    List (Bytes × WriteOp) → Except String Unit × CacheStorage
  | [] => (Except.ok (), st)
  | (key, WriteOp.Value value) :: rest =>
    match st.put prefix_name key value with
    | (Except.ok _, st') => st'.writeRows prefix_name rest
    | (Except.error e, st') => (Except.error e, st')
  | (key, WriteOp.Deletion) :: rest =>
    match st.remove prefix_name key with
    | (Except.ok _, st') => st'.writeRows prefix_name rest
    | (Except.error e, st') => (Except.error e, st')

/-- Source: `InnerStore::write_batch for CacheStorage`. -/
def CacheStorage.write_batch (st : CacheStorage) (prefix_name : Bytes) (batch : WriteBatch) :
    Except String Unit × CacheStorage :=
  record_metrics_call (fun _ => st.writeRows prefix_name batch.rows)

/-- Source: `InnerStore::get_len for CacheStorage`. -/
def CacheStorage.get_len (st : CacheStorage) : Except String Nat :=
  Except.ok st.cache.len

/-- Source: `InnerStore::keys for CacheStorage`. -/
def CacheStorage.keysOp (st : CacheStorage) : Except String (List Bytes) :=
  Except.ok st.cache.keys

/-- Source: `InnerStore::put_sync for CacheStorage`: identical to `put`. -/
def CacheStorage.put_sync (st : CacheStorage) (prefix_name : Bytes) (key value : Bytes) :
    Except String Unit × CacheStorage :=
  st.put prefix_name key value

/-- Source: `InnerStore::write_batch_sync for CacheStorage`: identical to `write_batch`. -/
def CacheStorage.write_batch_sync (st : CacheStorage) (prefix_name : Bytes) (batch : WriteBatch) :
    Except String Unit × CacheStorage :=
  st.write_batch prefix_name batch

/-- A trace operation against a single shard, for stating LRU properties over
arbitrary operation sequences. -/
inductive ShardOp where
  | put (k v : Bytes)
  | get (k : Bytes)
  deriving Repr, DecidableEq

/-- Apply one trace operation to a shard (the returned value is discarded). -/
def Shard.step (s : Shard) : ShardOp → Shard
  | ShardOp.put k v => (s.put k v).2
  | ShardOp.get k => (s.get k).2

/-- Run a trace of operations against a fresh shard of capacity `cap`. -/
def Shard.run (cap : Nat) (ops : List ShardOp) : Shard :=
  ops.foldl Shard.step (Shard.empty cap)

/-- The shard invariant maintained by every reachable state: the capacity is
the constructed one, the entry count is bounded by it, the recency list is
ordered by strictly decreasing last-access time (most-recently-used first),
and every recorded access time is in the past. -/
def Shard.Inv (cap : Nat) (s : Shard) : Prop :=
  s.cap = cap ∧
  s.entries.length ≤ cap ∧
  s.entries.Pairwise (fun a b => b.2.2 < a.2.2) ∧
  ∀ e ∈ s.entries, e.2.2 < s.clock

theorem Shard.inv_empty (cap : Nat) : Shard.Inv cap (Shard.empty cap) := by
  refine ⟨rfl, by simp [Shard.empty], by simp [Shard.empty], by simp [Shard.empty]⟩

/-- Removing the entries matching a key that is present strictly shrinks the
list. -/
theorem length_filter_lt_of_find?_isSome (l : List (Bytes × Bytes × Nat)) (k : Bytes)
    (h : (l.find? (fun e => e.1 == k)).isSome) :
    (l.filter (fun e => !(e.1 == k))).length < l.length := by
  induction l with
  | nil => simp at h
  | cons a t ih =>
    by_cases ha : a.1 = k
    · have hlen := List.length_filter_le (fun e => !(e.1 == k)) t
      simp only [List.filter_cons, ha, beq_self_eq_true, Bool.not_true, if_neg Bool.false_ne_true,
        List.length_cons]
      omega
    · have ha' : (a.1 == k) = false := beq_false_of_ne ha
      rw [List.find?_cons, ha'] at h
      have := ih h
      simp [List.filter_cons, ha']
      omega

/-- In a list ordered by strictly decreasing last-access time, the last entry
has the minimal last-access time. -/
theorem getLast?_min_of_pairwise (l : List (Bytes × Bytes × Nat))
    (hp : l.Pairwise (fun a b => b.2.2 < a.2.2)) (ev : Bytes × Bytes × Nat)
    (hl : l.getLast? = some ev) :
    ∀ e ∈ l, ev.2.2 ≤ e.2.2 := by
  induction l with
  | nil => simp at hl
  | cons a t ih =>
    cases t with
    | nil =>
      simp at hl
      subst hl
      simp
    | cons b u =>
      rw [List.getLast?_cons_cons] at hl
      intro e he
      rcases List.mem_cons.mp he with rfl | he'
      · have hsplit := List.dropLast_append_getLast? ev (Option.mem_def.mpr hl)
        have hev : ev ∈ b :: u := by
          rw [← hsplit]
          simp
        have := (List.pairwise_cons.mp hp).1 ev hev
        omega
      · exact ih (List.pairwise_cons.mp hp).2 hl e he'

/-- The last element of a duplicate-free (here: strictly ordered) list does
not occur among the other elements. -/
theorem getLast?_not_mem_dropLast_of_pairwise (l : List (Bytes × Bytes × Nat))
    (hp : l.Pairwise (fun a b => b.2.2 < a.2.2)) (ev : Bytes × Bytes × Nat)
    (hl : l.getLast? = some ev) :
    ev ∉ l.dropLast := by
  intro hmem
  have hsplit : l.dropLast ++ [ev] = l := List.dropLast_append_getLast? ev (Option.mem_def.mpr hl)
  have hpl : (l.dropLast ++ [ev]).Pairwise (fun a b => b.2.2 < a.2.2) := by
    rw [hsplit]
    exact hp
  have := (List.pairwise_append.mp hpl).2.2 ev hmem ev (by simp)
  omega

/-- Accessing a key keeps the invariant, provided the surviving other entries
leave room for the refreshed one. -/
theorem Shard.inv_touch (cap : Nat) (s : Shard) (k v : Bytes) (h : Shard.Inv cap s)
    (hflt : (s.entries.filter (fun e => !(e.1 == k))).length < cap) :
    Shard.Inv cap (s.touch k v) := by
  obtain ⟨hc, hl, hp, ht⟩ := h
  refine ⟨hc, ?_, ?_, ?_⟩
  · simp only [Shard.touch, List.length_cons]
    omega
  · refine List.pairwise_cons.mpr ⟨?_, ?_⟩
    · intro e he
      exact ht e ((List.filter_sublist _).subset he)
    · exact List.Pairwise.sublist (List.filter_sublist _) hp
  · intro e he
    rcases List.mem_cons.mp he with rfl | he'
    · simp [Shard.touch]
    · have := ht e ((List.filter_sublist _).subset he')
      simp only [Shard.touch]
      omega

/-- Every single shard operation preserves the invariant. -/
theorem Shard.inv_step (cap : Nat) (s : Shard) (op : ShardOp) (hcap : 1 ≤ cap)
    (h : Shard.Inv cap s) : Shard.Inv cap (s.step op) := by
  obtain ⟨hc, hl, hp, ht⟩ := h
  cases op with
  | get k =>
    simp only [Shard.step, Shard.get]
    cases hfind : s.findEntry k with
    | none => exact ⟨hc, hl, hp, ht⟩
    | some e =>
      refine Shard.inv_touch cap s k e.2.1 ⟨hc, hl, hp, ht⟩ ?_
      have := length_filter_lt_of_find?_isSome s.entries k (by
        simp [Shard.findEntry] at hfind
        simp [hfind])
      omega
  | put k v =>
    simp only [Shard.step, Shard.put]
    cases hfind : s.findEntry k with
    | some e =>
      refine Shard.inv_touch cap s k v ⟨hc, hl, hp, ht⟩ ?_
      have := length_filter_lt_of_find?_isSome s.entries k (by
        simp [Shard.findEntry] at hfind
        simp [hfind])
      omega
    | none =>
      by_cases hfull : s.entries.length = s.cap
      · simp only [if_pos hfull]
        refine ⟨hc, ?_, ?_, ?_⟩
        · simp only [List.length_cons, List.length_dropLast]
          omega
        · refine List.pairwise_cons.mpr ⟨?_, ?_⟩
          · intro e he
            exact ht e ((List.dropLast_sublist _).subset he)
          · exact List.Pairwise.sublist (List.dropLast_sublist _) hp
        · intro e he
          rcases List.mem_cons.mp he with rfl | he'
          · simp
          · have := ht e ((List.dropLast_sublist _).subset he')
            simp only []
            omega
      · simp only [if_neg hfull]
        refine Shard.inv_touch cap s k v ⟨hc, hl, hp, ht⟩ ?_
        have := List.length_filter_le (fun e => !(e.1 == k)) s.entries
        omega

/-- The invariant holds along any foldl over trace operations. -/
theorem Shard.inv_foldl (cap : Nat) (ops : List ShardOp) (s : Shard) (hcap : 1 ≤ cap)
    (h : Shard.Inv cap s) : Shard.Inv cap (ops.foldl Shard.step s) := by
  induction ops generalizing s with
  | nil => exact h
  | cons op rest ih => exact ih _ (Shard.inv_step cap s op hcap h)

/-- Every state reachable from a fresh shard satisfies the invariant. -/
theorem Shard.inv_run (cap : Nat) (ops : List ShardOp) (hcap : 1 ≤ cap) :
    Shard.Inv cap (Shard.run cap ops) :=
  Shard.inv_foldl cap ops (Shard.empty cap) hcap (Shard.inv_empty cap)

/-- The routed index is always a legal shard index (helper). -/
theorem ShardLruCache.get_idx_lt (key : Bytes) : ShardLruCache.get_idx key < NUM_SHARDS := by
  have h1 : defaultHasher key % 2 ^ 32 < 2 ^ 32 := Nat.mod_lt _ (by norm_num)
  have h2 : defaultHasher key % 2 ^ 32 / 2 ^ 28 < 16 :=
    (Nat.div_lt_iff_lt_mul (by norm_num)).mpr (h1.trans_le (by norm_num))
  simpa [ShardLruCache.get_idx, ShardLruCache.shard, NUM_SHARD_BITS, NUM_SHARDS,
    Nat.shiftRight_eq_div_pow, Nat.shiftLeft_eq] using h2

theorem ShardLruCache.shardAt_set_self (c : ShardLruCache) (idx : Nat) (s : Shard)
    (h : idx < c.caches.length) :
    (ShardLruCache.mk (c.caches.set idx s)).shardAt idx = s := by
  simp [ShardLruCache.shardAt, List.getD_eq_getElem?_getD, List.getElem?_set_self h]

theorem ShardLruCache.shardAt_set_ne (c : ShardLruCache) (idx j : Nat) (s : Shard)
    (h : idx ≠ j) :
    (ShardLruCache.mk (c.caches.set idx s)).shardAt j = c.shardAt j := by
  simp [ShardLruCache.shardAt, List.getD_eq_getElem?_getD, List.getElem?_set_ne h]

/-- Whatever branch `put` takes, the freshly written entry sits at the front
of the recency list with the current clock as its access time. -/
theorem Shard.put_entries_cons (s : Shard) (k v : Bytes) :
    ∃ rest, ((s.put k v).2).entries = (k, v, s.clock) :: rest := by
  unfold Shard.put
  cases s.findEntry k with
  | some e => exact ⟨_, rfl⟩
  | none =>
    by_cases hfull : s.entries.length = s.cap
    · rw [if_pos hfull]
      exact ⟨_, rfl⟩
    · rw [if_neg hfull]
      exact ⟨_, rfl⟩

/-- Looking up a key whose entry heads the list finds that entry. -/
theorem Shard.findEntry_head (s : Shard) (k v : Bytes) (t : Nat)
    (rest : List (Bytes × Bytes × Nat)) (h : s.entries = (k, v, t) :: rest) :
    s.findEntry k = some (k, v, t) := by
  simp [Shard.findEntry, h, List.find?_cons]

/-- After a put, the key is present with the new value. -/
theorem Shard.get_put_self (s : Shard) (k v : Bytes) :
    (((s.put k v).2).get k).1 = some v := by
  obtain ⟨rest, hrest⟩ := Shard.put_entries_cons s k v
  rw [Shard.get, Shard.findEntry_head _ k v s.clock rest hrest]

/-- After a pop, the key is gone. -/
theorem Shard.findEntry_pop_self (s : Shard) (k : Bytes) :
    ((s.pop k).2).findEntry k = none := by
  unfold Shard.pop
  cases h : s.findEntry k with
  | none => exact h
  | some e =>
    simp only [Shard.findEntry]
    rw [List.find?_eq_none]
    intro a ha
    have := (List.mem_filter.mp ha).2
    simpa using this

/-- A put of a different key never disturbs the entry at the front of the
recency list, as long as the shard can hold two entries. -/
theorem Shard.put_preserves_head (s : Shard) (k1 v1 : Bytes) (t : Nat)
    (rest : List (Bytes × Bytes × Nat)) (k2 v2 : Bytes)
    (hhead : s.entries = (k1, v1, t) :: rest) (hne : (k1 == k2) = false)
    (hcap : 2 ≤ s.cap) :
    ((s.put k2 v2).2).findEntry k1 = some (k1, v1, t) := by
  unfold Shard.put
  cases hfind : s.findEntry k2 with
  | some e =>
    simp only [Shard.touch, Shard.findEntry, hhead, List.filter_cons, hne, Bool.not_false,
      if_pos rfl, List.find?_cons]
    have hk2k1 : (k2 == k1) = false := by
      cases h : k2 == k1 with
      | false => rfl
      | true =>
        rw [beq_iff_eq] at h
        rw [h, beq_self_eq_true] at hne
        exact absurd hne (by simp)
    simp [hk2k1]
  | none =>
    by_cases hfull : s.entries.length = s.cap
    · rw [if_pos hfull]
      have hrest : rest ≠ [] := by
        intro hr
        rw [hhead, hr] at hfull
        simp at hfull
        omega
      simp only [Shard.findEntry, hhead, List.dropLast_cons_of_ne_nil hrest, List.find?_cons]
      have hk2k1 : (k2 == k1) = false := by
        cases h : k2 == k1 with
        | false => rfl
        | true =>
          rw [beq_iff_eq] at h
          rw [h, beq_self_eq_true] at hne
          exact absurd hne (by simp)
      simp [hk2k1]
    · rw [if_neg hfull]
      simp only [Shard.touch, Shard.findEntry, hhead, List.filter_cons, hne, Bool.not_false,
        if_pos rfl, List.find?_cons]
      have hk2k1 : (k2 == k1) = false := by
        cases h : k2 == k1 with
        | false => rfl
        | true =>
          rw [beq_iff_eq] at h
          rw [h, beq_self_eq_true] at hne
          exact absurd hne (by simp)
      simp [hk2k1]

/-- C2: For every shard and every sequence of put/get operations from a fresh
shard of positive capacity, the entry count never exceeds the capacity; and
when a put inserts a new key into a shard already at capacity, exactly one
entry — the least-recently-accessed one (the entry whose recorded last-access
time is minimal) — is evicted: the new state keeps everything but the last
recency-list entry `ev`, `ev` is gone, and `ev`'s last-access time is ≤ that
of every entry present at eviction time. -/
theorem shard_lru_capacity_and_eviction (cap : Nat) (ops : List ShardOp) (hcap : 1 ≤ cap) :
    (Shard.run cap ops).len ≤ cap ∧
    ∀ k v, (Shard.run cap ops).contains k = false →
      (Shard.run cap ops).len = cap →
      ∃ ev, (Shard.run cap ops).entries.getLast? = some ev ∧
        ((Shard.run cap ops).put k v).2.entries
          = (k, v, (Shard.run cap ops).clock) :: (Shard.run cap ops).entries.dropLast ∧
        ev ∉ ((Shard.run cap ops).put k v).2.entries ∧
        (∀ e ∈ (Shard.run cap ops).entries, e ≠ ev →
          e ∈ ((Shard.run cap ops).put k v).2.entries) ∧
        (∀ e ∈ (Shard.run cap ops).entries, ev.2.2 ≤ e.2.2) := by
  obtain ⟨hc, hl, hp, ht⟩ := Shard.inv_run cap ops hcap
  refine ⟨hl, ?_⟩
  intro k v hcon hlen
  have hfind : (Shard.run cap ops).findEntry k = none := by
    cases h : (Shard.run cap ops).findEntry k with
    | none => rfl
    | some e => simp [Shard.contains, h] at hcon
  have hne : (Shard.run cap ops).entries ≠ [] := by
    intro h
    rw [Shard.len, h] at hlen
    simp at hlen
    omega
  refine ⟨(Shard.run cap ops).entries.getLast hne,
    List.getLast?_eq_getLast_of_ne_nil hne, ?_, ?_, ?_, ?_⟩
  · simp only [Shard.put, hfind]
    rw [if_pos (by rw [hc]; exact hlen)]
  · -- the evicted entry is gone from the new state
    have hlast? := List.getLast?_eq_getLast_of_ne_nil hne
    simp only [Shard.put, hfind]
    rw [if_pos (by rw [hc]; exact hlen)]
    intro hmem
    rcases List.mem_cons.mp hmem with heq | hmem'
    · have hev_mem : (Shard.run cap ops).entries.getLast hne ∈ (Shard.run cap ops).entries :=
        List.getLast_mem hne
      have := ht _ hev_mem
      rw [heq] at this
      simp at this
    · exact getLast?_not_mem_dropLast_of_pairwise _ hp _ hlast? hmem'
  · -- every other entry survives
    intro e he hne'
    simp only [Shard.put, hfind]
    rw [if_pos (by rw [hc]; exact hlen)]
    have hsplit : (Shard.run cap ops).entries.dropLast
        ++ [(Shard.run cap ops).entries.getLast hne] = (Shard.run cap ops).entries :=
      List.dropLast_append_getLast hne
    rw [← hsplit] at he
    rcases List.mem_append.mp he with h1 | h2
    · exact List.mem_cons_of_mem _ h1
    · simp at h2
      exact absurd h2 hne'
  · exact getLast?_min_of_pairwise _ hp _ (List.getLast?_eq_getLast_of_ne_nil hne)

/-- Witness for C2 at `cap = 1`, `ops = [put [0] [1]]`. -/
theorem shard_lru_capacity_and_eviction_witness :
    (Shard.run 1 [ShardOp.put [0] [1]]).len ≤ 1 ∧
    ∀ k v, (Shard.run 1 [ShardOp.put [0] [1]]).contains k = false →
      (Shard.run 1 [ShardOp.put [0] [1]]).len = 1 →
      ∃ ev, (Shard.run 1 [ShardOp.put [0] [1]]).entries.getLast? = some ev ∧
        ((Shard.run 1 [ShardOp.put [0] [1]]).put k v).2.entries
          = (k, v, (Shard.run 1 [ShardOp.put [0] [1]]).clock)
            :: (Shard.run 1 [ShardOp.put [0] [1]]).entries.dropLast ∧
        ev ∉ ((Shard.run 1 [ShardOp.put [0] [1]]).put k v).2.entries ∧
        (∀ e ∈ (Shard.run 1 [ShardOp.put [0] [1]]).entries, e ≠ ev →
          e ∈ ((Shard.run 1 [ShardOp.put [0] [1]]).put k v).2.entries) ∧
        (∀ e ∈ (Shard.run 1 [ShardOp.put [0] [1]]).entries, ev.2.2 ≤ e.2.2) :=
  shard_lru_capacity_and_eviction 1 [ShardOp.put [0] [1]] (by decide)

/-- Source: `put` never changes a shard's capacity. -/
theorem Shard.put_cap (s : Shard) (k v : Bytes) : ((s.put k v).2).cap = s.cap := by
  unfold Shard.put
  cases s.findEntry k with
  | some e => rfl
  | none =>
    by_cases hfull : s.entries.length = s.cap
    · rw [if_pos hfull]
    · rw [if_neg hfull]
      rfl

/-- Source: `get` never changes a shard's capacity. -/
theorem Shard.get_cap (s : Shard) (k : Bytes) : ((s.get k).2).cap = s.cap := by
  unfold Shard.get
  cases s.findEntry k with
  | some e => rfl
  | none => rfl

/-- Source: `pop` never changes a shard's capacity. -/
theorem Shard.pop_cap (s : Shard) (k : Bytes) : ((s.pop k).2).cap = s.cap := by
  unfold Shard.pop
  cases s.findEntry k with
  | some e => rfl
  | none => rfl

/-- The value `get` returns is the stored value of the entry found. -/
theorem Shard.get_fst (s : Shard) (k : Bytes) :
    (s.get k).1 = (s.findEntry k).map (fun e => e.2.1) := by
  unfold Shard.get
  cases s.findEntry k with
  | some e => rfl
  | none => rfl

/-- Entries present after a put are the new entry or survivors. -/
theorem Shard.mem_put_entries (s : Shard) (k v : Bytes) (e : Bytes × Bytes × Nat)
    (h : e ∈ ((s.put k v).2).entries) : e = (k, v, s.clock) ∨ e ∈ s.entries := by
  unfold Shard.put at h
  rcases hfe : s.findEntry k with _ | e0
  · rw [hfe] at h
    by_cases hfull : s.entries.length = s.cap
    · rw [if_pos hfull] at h
      rcases List.mem_cons.mp h with heq | hmem
      · exact Or.inl heq
      · exact Or.inr ((List.dropLast_sublist _).subset hmem)
    · rw [if_neg hfull] at h
      rcases List.mem_cons.mp h with heq | hmem
      · exact Or.inl heq
      · exact Or.inr ((List.filter_sublist _).subset hmem)
  · rw [hfe] at h
    rcases List.mem_cons.mp h with heq | hmem
    · exact Or.inl heq
    · exact Or.inr ((List.filter_sublist _).subset hmem)

/-- A put of a different key never introduces an absent key. -/
theorem Shard.findEntry_put_none (s : Shard) (k1 v k2 : Bytes)
    (h : s.findEntry k2 = none) (hne : (k1 == k2) = false) :
    ((s.put k1 v).2).findEntry k2 = none := by
  rw [Shard.findEntry, List.find?_eq_none] at h ⊢
  intro e he
  rcases Shard.mem_put_entries s k1 v e he with rfl | hmem
  · simpa using hne
  · exact h e hmem

theorem ShardLruCache.put_caches_length (c : ShardLruCache) (k v : Bytes) :
    ((c.put k v).2).caches.length = c.caches.length := by
  simp [ShardLruCache.put]

theorem ShardLruCache.pop_caches_length (c : ShardLruCache) (k : Bytes) :
    ((c.pop k).2).caches.length = c.caches.length := by
  simp [ShardLruCache.pop]

/-- The value a cache `get` returns is read from the routed shard. -/
theorem ShardLruCache.get_value_eq (c : ShardLruCache) (k : Bytes) :
    (c.get k).1
      = ((c.shardAt (ShardLruCache.get_idx k)).findEntry k).map (fun e => e.2.1) := by
  simp only [ShardLruCache.get]
  rw [Shard.get_fst]

/-- A cache `contains` is a lookup in the routed shard. -/
theorem ShardLruCache.contains_eq (c : ShardLruCache) (k : Bytes) :
    c.contains k = ((c.shardAt (ShardLruCache.get_idx k)).findEntry k).isSome := rfl

/-- Out-of-range routing degenerates to the empty shard, also after a set. -/
theorem ShardLruCache.shardAt_set_oob (c : ShardLruCache) (idx : Nat) (s : Shard)
    (h : c.caches.length ≤ idx) :
    (ShardLruCache.mk (c.caches.set idx s)).shardAt idx = Shard.empty 0 := by
  have h2 : (c.caches.set idx s).length ≤ idx := by simpa using h
  simp [ShardLruCache.shardAt, List.getD_eq_getElem?_getD, List.getElem?_eq_none h2]

/-- C3: For every namespace, key and value, on a well-formed cache (the
constructed `NUM_SHARDS` shards, each of positive capacity — the regime of
every cache built by `new`/`new_with_capacity` with a positive total
capacity), `put(ns, k, v)` immediately followed by `get(ns, k)` returns
`Ok(Some(v))`. -/
theorem cache_put_then_get (st : CacheStorage) (prefix_name key value : Bytes)
    (hlen : st.cache.caches.length = NUM_SHARDS)
    (hcap : ∀ s ∈ st.cache.caches, 1 ≤ s.cap) :
    (((st.put prefix_name key value).2).get prefix_name key).1
      = Except.ok (some value) := by
  have hidx : ShardLruCache.get_idx (compose_key prefix_name key)
      < st.cache.caches.length := by
    rw [hlen]
    exact ShardLruCache.get_idx_lt _
  simp only [CacheStorage.put, CacheStorage.get, record_metrics_call]
  rw [ShardLruCache.get_value_eq]
  simp only [ShardLruCache.put]
  rw [ShardLruCache.shardAt_set_self _ _ _ hidx]
  obtain ⟨rest, hrest⟩ :=
    Shard.put_entries_cons (st.cache.shardAt
      (ShardLruCache.get_idx (compose_key prefix_name key)))
      (compose_key prefix_name key) value
  rw [Shard.findEntry_head _ _ _ _ _ hrest]
  rfl

/-- Witness for C3 on a freshly constructed cache of capacity 16. -/
theorem cache_put_then_get_witness :
    ((((CacheStorage.new_with_capacity 16 none).put [97] [1] [2]).2).get [97] [1]).1
      = Except.ok (some [2]) :=
  cache_put_then_get (CacheStorage.new_with_capacity 16 none) [97] [1] [2]
    (by decide) (by decide)

/-- C6: For every namespace and key, immediately after `remove(ns, k)`,
`get(ns, k)` returns `Ok(None)` and `contains_key(ns, k)` returns
`Ok(false)`. -/
theorem cache_remove_then_get_none (st : CacheStorage) (prefix_name key : Bytes) :
    (((st.remove prefix_name key).2).get prefix_name key).1 = Except.ok none ∧
    (((st.remove prefix_name key).2).contains_key prefix_name key).1
      = Except.ok false := by
  by_cases hidx :
      ShardLruCache.get_idx (compose_key prefix_name key) < st.cache.caches.length
  · constructor
    · simp only [CacheStorage.remove, CacheStorage.get, record_metrics_call]
      rw [ShardLruCache.get_value_eq]
      simp only [ShardLruCache.pop]
      rw [ShardLruCache.shardAt_set_self _ _ _ hidx, Shard.findEntry_pop_self]
      rfl
    · simp only [CacheStorage.remove, CacheStorage.contains_key, record_metrics_call]
      rw [ShardLruCache.contains_eq]
      simp only [ShardLruCache.pop]
      rw [ShardLruCache.shardAt_set_self _ _ _ hidx, Shard.findEntry_pop_self]
      rfl
  · have hle : st.cache.caches.length
        ≤ ShardLruCache.get_idx (compose_key prefix_name key) := Nat.le_of_not_lt hidx
    constructor
    · simp only [CacheStorage.remove, CacheStorage.get, record_metrics_call]
      rw [ShardLruCache.get_value_eq]
      simp only [ShardLruCache.pop]
      rw [ShardLruCache.shardAt_set_oob _ _ _ hle]
      rfl
    · simp only [CacheStorage.remove, CacheStorage.contains_key, record_metrics_call]
      rw [ShardLruCache.contains_eq]
      simp only [ShardLruCache.pop]
      rw [ShardLruCache.shardAt_set_oob _ _ _ hle]
      rfl


/-- An in-range routed shard is one of the cache's shards. -/
theorem ShardLruCache.shardAt_mem (c : ShardLruCache) (idx : Nat)
    (h : idx < c.caches.length) : c.shardAt idx ∈ c.caches := by
  have heq : c.shardAt idx = c.caches[idx] := by
    simp [ShardLruCache.shardAt, List.getD_eq_getElem?_getD, List.getElem?_eq_getElem h]
  rw [heq]
  exact List.getElem_mem h

/-- Two puts under different composite keys, then a get of each: both values
are found, provided every shard can hold at least two entries. -/
theorem ShardLruCache.put_put_get_isolation (c : ShardLruCache) (k1 k2 v1 v2 : Bytes)
    (hne : (k1 == k2) = false)
    (hlen : c.caches.length = NUM_SHARDS)
    (hcap : ∀ s ∈ c.caches, 2 ≤ s.cap) :
    ((((c.put k1 v1).2).put k2 v2).2.get k1).1 = some v1 ∧
    ((((c.put k1 v1).2).put k2 v2).2.get k2).1 = some v2 := by
  have hi1 : ShardLruCache.get_idx k1 < c.caches.length := by
    rw [hlen]
    exact ShardLruCache.get_idx_lt k1
  obtain ⟨rest, hrest⟩ :=
    Shard.put_entries_cons (c.shardAt (ShardLruCache.get_idx k1)) k1 v1
  constructor
  · -- get k1 finds v1
    rw [ShardLruCache.get_value_eq]
    by_cases hij : ShardLruCache.get_idx k2 = ShardLruCache.get_idx k1
    · -- both keys route to the same shard
      simp only [ShardLruCache.put]
      rw [hij]
      rw [ShardLruCache.shardAt_set_self _ _ _ (by simpa using hi1)]
      rw [ShardLruCache.shardAt_set_self _ _ _ hi1]
      have hcap1 : 2 ≤ ((c.shardAt (ShardLruCache.get_idx k1)).put k1 v1).2.cap := by
        rw [Shard.put_cap]
        exact hcap _ (ShardLruCache.shardAt_mem _ _ hi1)
      rw [Shard.put_preserves_head _ k1 v1 _ rest k2 v2 hrest hne hcap1]
      rfl
    · -- the second put touches a different shard
      simp only [ShardLruCache.put]
      rw [ShardLruCache.shardAt_set_ne _ _ _ _ hij]
      rw [ShardLruCache.shardAt_set_self _ _ _ hi1]
      rw [Shard.findEntry_head _ _ _ _ _ hrest]
      rfl
  · -- get k2 finds v2
    rw [ShardLruCache.get_value_eq]
    simp only [ShardLruCache.put]
    rw [ShardLruCache.shardAt_set_self _ _ _
      (by simp [hlen]; exact ShardLruCache.get_idx_lt k2)]
    obtain ⟨rest2, hrest2⟩ := Shard.put_entries_cons
      ((ShardLruCache.mk (c.caches.set (ShardLruCache.get_idx k1)
        ((c.shardAt (ShardLruCache.get_idx k1)).put k1 v1).2)).shardAt
        (ShardLruCache.get_idx k2)) k2 v2
    rw [Shard.findEntry_head _ _ _ _ _ hrest2]
    rfl

/-- C1 (counterexample): the claimed no-collision invariant of `compose_key`
is false — the naive concatenation lets the distinct pairs
`("ab", [99])` and `("a", [98, 99])` (`"ab"` = `[97, 98]`, `"a"` = `[97]`)
produce the same composite key `[97, 98, 99]`. -/
theorem compose_key_collision_counterexample :
    ¬ (∀ (ns1 k1 ns2 k2 : Bytes),
        compose_key ns1 k1 = compose_key ns2 k2 → ns1 = ns2 ∧ k1 = k2) := by
  intro h
  have hc := h [97, 98] [99] [97] [98, 99] rfl
  exact absurd hc.1 (by decide)

/-- C1 (amended): `compose_key` is plain concatenation, so two (namespace,
key) pairs produce equal composite keys iff the concatenations of their bytes
are equal; for a fixed namespace the composition is injective in the key and
for a fixed raw key it is injective in the namespace, but distinct pairs can
collide (see the counterexample). -/
theorem compose_key_eq_iff :
    (∀ (ns k1 k2 : Bytes), compose_key ns k1 = compose_key ns k2 ↔ k1 = k2) ∧
    (∀ (ns1 ns2 k : Bytes), compose_key ns1 k = compose_key ns2 k ↔ ns1 = ns2) ∧
    (∀ (ns1 k1 ns2 k2 : Bytes),
      compose_key ns1 k1 = compose_key ns2 k2 ↔ ns1 ++ k1 = ns2 ++ k2) := by
  refine ⟨?_, ?_, ?_⟩
  · intro ns k1 k2
    exact ⟨fun h => List.append_cancel_left h, fun h => by rw [compose_key, compose_key, h]⟩
  · intro ns1 ns2 k
    exact ⟨fun h => List.append_cancel_right h, fun h => by rw [compose_key, compose_key, h]⟩
  · intro ns1 k1 ns2 k2
    exact Iff.rfl

/-- C5: identical raw keys under the distinct namespaces `"a"` (`[97]`) and
`"b"` (`[98]`) never collide: on a well-formed cache whose shards each hold
at least two entries, after `put("a", k, v1)` then `put("b", k, v2)`, both
`get("a", k) = Ok(Some v1)` and `get("b", k) = Ok(Some v2)`. -/
theorem cache_namespace_isolation (st : CacheStorage) (k v1 v2 : Bytes)
    (hlen : st.cache.caches.length = NUM_SHARDS)
    (hcap : ∀ s ∈ st.cache.caches, 2 ≤ s.cap) :
    ((((st.put [97] k v1).2).put [98] k v2).2.get [97] k).1 = Except.ok (some v1) ∧
    ((((st.put [97] k v1).2).put [98] k v2).2.get [98] k).1 = Except.ok (some v2) := by
  have hne : (compose_key [97] k == compose_key [98] k) = false := by
    apply beq_false_of_ne
    simp [compose_key]
  have hiso := ShardLruCache.put_put_get_isolation st.cache (compose_key [97] k)
    (compose_key [98] k) v1 v2 hne hlen hcap
  constructor
  · simp only [CacheStorage.put, CacheStorage.get, record_metrics_call]
    rw [hiso.1]
  · simp only [CacheStorage.put, CacheStorage.get, record_metrics_call]
    rw [hiso.2]

/-- Witness for C5 on a freshly constructed cache of capacity 32 (per-shard
capacity 2). -/
theorem cache_namespace_isolation_witness :
    (((((CacheStorage.new_with_capacity 32 none).put [97] [] [1]).2).put [98] [] [2]).2.get
        [97] []).1 = Except.ok (some [1]) ∧
    (((((CacheStorage.new_with_capacity 32 none).put [97] [] [1]).2).put [98] [] [2]).2.get
        [98] []).1 = Except.ok (some [2]) :=
  cache_namespace_isolation (CacheStorage.new_with_capacity 32 none) [] [1] [2]
    (by decide) (by decide)

/-- C7: the shard-routing function is a pure, deterministic function of the
key's bytes alone — `get_idx` takes no state, and every operation on key `k`,
in every cache state, reads and writes only the shard `get_idx k`: all other
shards are untouched by `put`/`get`/`pop`, and `contains` mutates nothing. -/
theorem route_pure_function_of_key (k v : Bytes) (c : ShardLruCache) (j : Nat)
    (hj : j ≠ ShardLruCache.get_idx k) :
    ((c.put k v).2.shardAt j = c.shardAt j) ∧
    ((c.get k).2.shardAt j = c.shardAt j) ∧
    ((c.pop k).2.shardAt j = c.shardAt j) ∧
    (∀ c' : ShardLruCache,
      ShardLruCache.get_idx k = ShardLruCache.get_idx k ∧ c'.contains k = c'.contains k) := by
  refine ⟨?_, ?_, ?_, fun c' => ⟨rfl, rfl⟩⟩
  · simp only [ShardLruCache.put]
    exact ShardLruCache.shardAt_set_ne _ _ _ _ (Ne.symm hj)
  · simp only [ShardLruCache.get]
    exact ShardLruCache.shardAt_set_ne _ _ _ _ (Ne.symm hj)
  · simp only [ShardLruCache.pop]
    exact ShardLruCache.shardAt_set_ne _ _ _ _ (Ne.symm hj)

/-- Witness for C7: shard 0 is untouched by operations on the empty key
(which routes to shard 8). -/
theorem route_pure_function_of_key_witness :
    (((ShardLruCache.new 16).put [] [5]).2.shardAt 0 = (ShardLruCache.new 16).shardAt 0) ∧
    (((ShardLruCache.new 16).get []).2.shardAt 0 = (ShardLruCache.new 16).shardAt 0) ∧
    (((ShardLruCache.new 16).pop []).2.shardAt 0 = (ShardLruCache.new 16).shardAt 0) ∧
    (∀ c' : ShardLruCache,
      ShardLruCache.get_idx [] = ShardLruCache.get_idx [] ∧
        c'.contains [] = c'.contains []) :=
  route_pure_function_of_key [] [5] (ShardLruCache.new 16) 0 (by decide)

/-- C8: `new(cap)` constructs exactly `NUM_SHARDS = 16` shards, each of
capacity `(cap + 15) / 16` — the exact integer ceiling of `cap / 16`, i.e.
the least per-shard capacity whose 16-fold aggregate reaches `cap` — so the
aggregate capacity is at least `cap` and exceeds it by at most 15. -/
theorem cache_new_shard_capacity (cap : Nat) :
    (ShardLruCache.new cap).caches.length = NUM_SHARDS ∧
    NUM_SHARDS = 16 ∧
    (∀ s ∈ (ShardLruCache.new cap).caches,
      s.cap = (cap + NUM_SHARDS - 1) / NUM_SHARDS) ∧
    cap ≤ NUM_SHARDS * ((cap + NUM_SHARDS - 1) / NUM_SHARDS) ∧
    NUM_SHARDS * ((cap + NUM_SHARDS - 1) / NUM_SHARDS) ≤ cap + (NUM_SHARDS - 1) := by
  have h16 : NUM_SHARDS = 16 := by decide
  have hdm := Nat.div_add_mod (cap + 15) 16
  have hmod : (cap + 15) % 16 < 16 := Nat.mod_lt _ (by norm_num)
  refine ⟨?_, h16, ?_, ?_, ?_⟩
  · simp [ShardLruCache.new]
  · intro s hs
    rw [ShardLruCache.new] at hs
    rw [List.eq_of_mem_replicate hs]
    rfl
  · rw [h16]
    omega
  · rw [h16]
    omega

/-- C9: for every key, the routed shard index — the top 4 bits of the hash
truncated to 32 bits — is strictly below `NUM_SHARDS = 16`, hence strictly
below the length of the shard vector of every constructed cache: indexing is
always in bounds. -/
theorem get_idx_in_bounds (key : Bytes) (cap : Nat) :
    ShardLruCache.get_idx key < NUM_SHARDS ∧
    ShardLruCache.get_idx key < (ShardLruCache.new cap).caches.length := by
  refine ⟨ShardLruCache.get_idx_lt key, ?_⟩
  have hlen : (ShardLruCache.new cap).caches.length = NUM_SHARDS := by
    simp [ShardLruCache.new]
  rw [hlen]
  exact ShardLruCache.get_idx_lt key

/-- The spec's reference semantics for a batch: "replays each (key, op) of
the batch against `put`/`remove` in the batch's order" — a sequential replay
of the same calls, written directly as structural recursion over the rows. -/
def replaySeq (p : Bytes) : CacheStorage → List (Bytes × WriteOp) → CacheStorage
  | st, [] => st
  | st, (k, WriteOp.Value v) :: rest => replaySeq p (st.put p k v).2 rest
  | st, (k, WriteOp.Deletion) :: rest => replaySeq p (st.remove p k).2 rest

/-- The batch loop is the sequential replay, and it always succeeds. -/
theorem CacheStorage.writeRows_eq_replay (p : Bytes) (rows : List (Bytes × WriteOp)) :
    ∀ st : CacheStorage,
      CacheStorage.writeRows st p rows = (Except.ok (), replaySeq p st rows) := by
  induction rows with
  | nil =>
    intro st
    rfl
  | cons row rest ih =>
    intro st
    rcases row with ⟨k, op⟩
    cases op with
    | Value v =>
      simp only [CacheStorage.writeRows, CacheStorage.put, replaySeq]
      exact ih _
    | Deletion =>
      simp only [CacheStorage.writeRows, CacheStorage.remove, replaySeq]
      exact ih _

/-- A put followed by a get of the same key, at cache level, finds the new
value (in-bounds routing). -/
theorem ShardLruCache.get_put_fst (c : ShardLruCache) (k v : Bytes)
    (hidx : ShardLruCache.get_idx k < c.caches.length) :
    ((c.put k v).2.get k).1 = some v := by
  rw [ShardLruCache.get_value_eq]
  simp only [ShardLruCache.put]
  rw [ShardLruCache.shardAt_set_self _ _ _ hidx]
  obtain ⟨rest, hrest⟩ := Shard.put_entries_cons (c.shardAt (ShardLruCache.get_idx k)) k v
  rw [Shard.findEntry_head _ _ _ _ _ hrest]
  rfl

/-- After a cache-level pop, the routed shard no longer holds the key. -/
theorem ShardLruCache.lookup_after_pop (c : ShardLruCache) (k : Bytes) :
    (((c.pop k).2).shardAt (ShardLruCache.get_idx k)).findEntry k = none := by
  simp only [ShardLruCache.pop]
  by_cases hidx : ShardLruCache.get_idx k < c.caches.length
  · rw [ShardLruCache.shardAt_set_self _ _ _ hidx]
    exact Shard.findEntry_pop_self _ _
  · rw [ShardLruCache.shardAt_set_oob _ _ _ (Nat.le_of_not_lt hidx)]
    rfl

/-- A cache-level put of a different key never introduces an absent key. -/
theorem ShardLruCache.lookup_none_after_put_other (c : ShardLruCache) (k1 v k2 : Bytes)
    (hne : (k1 == k2) = false)
    (h : (c.shardAt (ShardLruCache.get_idx k2)).findEntry k2 = none) :
    (((c.put k1 v).2).shardAt (ShardLruCache.get_idx k2)).findEntry k2 = none := by
  simp only [ShardLruCache.put]
  by_cases hij : ShardLruCache.get_idx k1 = ShardLruCache.get_idx k2
  · rw [hij]
    by_cases hb : ShardLruCache.get_idx k2 < c.caches.length
    · rw [ShardLruCache.shardAt_set_self _ _ _ hb]
      exact Shard.findEntry_put_none _ _ _ _ h hne
    · rw [ShardLruCache.shardAt_set_oob _ _ _ (Nat.le_of_not_lt hb)]
      rfl
  · rw [ShardLruCache.shardAt_set_ne _ _ _ _ hij]
    exact h

/-- C4: `write_batch` applies each (key, op) row in the batch's listed order,
calling `put` for Set rows and `remove` for Delete rows, so its result is
`Ok(())` paired with the state of sequentially replaying the same calls; in
particular, on a well-formed cache, replaying
`[(k1, Set v1), (k2, Delete), (k1, Set v2)]` with `k1 ≠ k2` leaves
`get(k1) = Ok(Some v2)` and `get(k2) = Ok(None)`. -/
theorem cache_write_batch_replays_in_order :
    (∀ (st : CacheStorage) (p : Bytes) (batch : WriteBatch),
      st.write_batch p batch = (Except.ok (), replaySeq p st batch.rows)) ∧
    (∀ (st : CacheStorage) (p k1 k2 v1 v2 : Bytes),
      k1 ≠ k2 →
      st.cache.caches.length = NUM_SHARDS →
      (((st.write_batch p (WriteBatch.mk [(k1, WriteOp.Value v1), (k2, WriteOp.Deletion),
          (k1, WriteOp.Value v2)])).2.get p k1).1 = Except.ok (some v2) ∧
       ((st.write_batch p (WriteBatch.mk [(k1, WriteOp.Value v1), (k2, WriteOp.Deletion),
          (k1, WriteOp.Value v2)])).2.get p k2).1 = Except.ok none)) := by
  constructor
  · intro st p batch
    simp only [CacheStorage.write_batch, record_metrics_call]
    exact CacheStorage.writeRows_eq_replay p batch.rows st
  · intro st p k1 k2 v1 v2 hk hlen
    have hbatch : (st.write_batch p (WriteBatch.mk [(k1, WriteOp.Value v1),
        (k2, WriteOp.Deletion), (k1, WriteOp.Value v2)])).2
        = (((st.put p k1 v1).2.remove p k2).2.put p k1 v2).2 := by
      simp only [CacheStorage.write_batch, record_metrics_call]
      rw [CacheStorage.writeRows_eq_replay]
      simp only [replaySeq]
    rw [hbatch]
    constructor
    · simp only [CacheStorage.put, CacheStorage.remove, CacheStorage.get, record_metrics_call]
      rw [ShardLruCache.get_put_fst]
      rw [ShardLruCache.pop_caches_length, ShardLruCache.put_caches_length, hlen]
      exact ShardLruCache.get_idx_lt _
    · have hne : (compose_key p k1 == compose_key p k2) = false :=
        beq_false_of_ne (fun h => hk (List.append_cancel_left h))
      simp only [CacheStorage.put, CacheStorage.remove, CacheStorage.get, record_metrics_call]
      rw [ShardLruCache.get_value_eq]
      rw [ShardLruCache.lookup_none_after_put_other _ _ _ _ hne
        (ShardLruCache.lookup_after_pop _ _)]
      rfl

/-- Witness for C4 on a freshly constructed cache of capacity 16. -/
theorem cache_write_batch_replays_in_order_witness :
    (((CacheStorage.new_with_capacity 16 none).write_batch [99]
        (WriteBatch.mk [([1], WriteOp.Value [10]), ([2], WriteOp.Deletion),
          ([1], WriteOp.Value [11])])).2.get [99] [1]).1 = Except.ok (some [11]) ∧
    (((CacheStorage.new_with_capacity 16 none).write_batch [99]
        (WriteBatch.mk [([1], WriteOp.Value [10]), ([2], WriteOp.Deletion),
          ([1], WriteOp.Value [11])])).2.get [99] [2]).1 = Except.ok none :=
  cache_write_batch_replays_in_order.2 (CacheStorage.new_with_capacity 16 none)
    [99] [1] [2] [10] [11] (by decide) (by decide)

/-- Source: `Result::is_ok` for the modelled `anyhow::Result`. -/
def exceptIsOk {α : Type} : Except String α → Bool
  | Except.ok _ => true
  | Except.error _ => false

/-- C10: every store operation of the cache facade returns `Ok` for every
input and every cache state: the `Err` branch is unreachable in this
in-memory implementation. -/
theorem inner_store_ops_always_ok (st : CacheStorage) (p k v : Bytes) (batch : WriteBatch) :
    exceptIsOk (st.get p k).1 = true ∧
    exceptIsOk (st.put p k v).1 = true ∧
    exceptIsOk (st.contains_key p k).1 = true ∧
    exceptIsOk (st.remove p k).1 = true ∧
    exceptIsOk (st.write_batch p batch).1 = true ∧
    exceptIsOk st.get_len = true ∧
    exceptIsOk st.keysOp = true ∧
    exceptIsOk (st.put_sync p k v).1 = true ∧
    exceptIsOk (st.write_batch_sync p batch).1 = true := by
  have hwb : exceptIsOk (st.write_batch p batch).1 = true := by
    simp only [CacheStorage.write_batch, record_metrics_call]
    rw [CacheStorage.writeRows_eq_replay p batch.rows st]
    rfl
  exact ⟨rfl, rfl, rfl, rfl, hwb, rfl, rfl, rfl, hwb⟩
